import Mathlib

/-!
Shallow embedding of the ingredient-aggregation engine of the recipes
application (`src/components/grocery_list.py`) together with theorems
checking the natural-language specification against it.

Python `float` quantities are modelled as exact rationals (`ℚ`), matching
the spec's exact-rational reading of amounts; Python exceptions inside the
quantity evaluator are modelled with `Option`.  Strings are modelled over
their character lists; `str.strip`, `str.lower`, `str.split` and the regex
`_QTY_RE` are embedded character by character following the source.
-/

set_option allowUnsafeReducibility true

attribute [semireducible] Rat.mul Rat.add Rat.inv Rat.div Rat.sub Rat.neg

namespace Recipes

/-- ASCII whitespace, as matched by Python's `str.strip()` / `\s` on the
character set this engine handles. -/
def isWs (c : Char) : Bool :=
  c == ' ' || c == '\t' || c == '\n' || c == '\r' || c == '\x0b' || c == '\x0c'

/-- Python `str.strip()` on a character list. -/
def pyStripL (l : List Char) : List Char :=
  ((l.dropWhile isWs).reverse.dropWhile isWs).reverse

/-- Python `str.strip()`. -/
def pyStrip (s : String) : String := ⟨pyStripL s.data⟩

/-- Python `str.lower()` (ASCII model). -/
def pyLower (s : String) : String := ⟨s.data.map Char.toLower⟩

/-- The grouping key of the aggregator: `name.lower().strip()`. -/
def pyKey (s : String) : String := pyStrip (pyLower s)

/-- The vulgar-fraction glyphs of `_VULGAR_MAP`. -/
def isVulgar (c : Char) : Bool :=
  c == '½' || c == '⅓' || c == '⅔' || c == '¼' || c == '¾' ||
  c == '⅕' || c == '⅖' || c == '⅗' || c == '⅘' ||
  c == '⅙' || c == '⅚' ||
  c == '⅛' || c == '⅜' || c == '⅝' || c == '⅞'

/-- `_VULGAR_MAP` as a per-character expansion: each vulgar glyph is
replaced by its ASCII `a/b` spelling, other characters are kept. -/
def vulgarExpand (c : Char) : List Char :=
  if c == '½' then ['1', '/', '2'] else
  if c == '⅓' then ['1', '/', '3'] else
  if c == '⅔' then ['2', '/', '3'] else
  if c == '¼' then ['1', '/', '4'] else
  if c == '¾' then ['3', '/', '4'] else
  if c == '⅕' then ['1', '/', '5'] else
  if c == '⅖' then ['2', '/', '5'] else
  if c == '⅗' then ['3', '/', '5'] else
  if c == '⅘' then ['4', '/', '5'] else
  if c == '⅙' then ['1', '/', '6'] else
  if c == '⅚' then ['5', '/', '6'] else
  if c == '⅛' then ['1', '/', '8'] else
  if c == '⅜' then ['3', '/', '8'] else
  if c == '⅝' then ['5', '/', '8'] else
  if c == '⅞' then ['7', '/', '8'] else [c]

/-- The successive `str.replace` calls over `_VULGAR_MAP`. -/
def replaceVulgar (l : List Char) : List Char := (l.map vulgarExpand).flatten

/-- Character class of the quantity token of `_QTY_RE`:
`[\d\s/½⅓⅔¼¾⅕⅖⅗⅘⅙⅚⅛⅜⅝⅞.]`. -/
def isQtyChar (c : Char) : Bool :=
  c.isDigit || isWs c || c == '/' || c == '.' || isVulgar c

/-- Character class of the unit token of `_QTY_RE`: `[a-zA-Z.]`. -/
def isUnitChar (c : Char) : Bool := c.isAlpha || c == '.'

/-- Python `str.rstrip(".")`. -/
def rstripDot (l : List Char) : List Char :=
  (l.reverse.dropWhile (fun c => c == '.')).reverse

/-- The characters stripped from the item name: `" ,.-\t"`. -/
def isNamePunct (c : Char) : Bool :=
  c == ' ' || c == ',' || c == '.' || c == '-' || c == '\t'

/-- Python `name.strip(" ,.-\t")`. -/
def stripNamePunct (l : List Char) : List Char :=
  ((l.dropWhile isNamePunct).reverse.dropWhile isNamePunct).reverse

/-- Value of a digit string (tokens are small; matches Python's `int`). -/
def digitsToNat (l : List Char) : Nat :=
  l.foldl (fun n c => 10 * n + (c.toNat - '0'.toNat)) 0

/-- Python `Fraction(token)` on a whitespace-free token over the quantity
alphabet (digits, `/`, `.` — vulgar glyphs are already expanded).
`none` models `ValueError` / `ZeroDivisionError`. -/
def parseFractionTok (t : List Char) : Option ℚ :=
  match t with
  | [] => none
  | _ :: _ =>
    let a := t.takeWhile Char.isDigit
    match t.drop a.length with
    | [] => some (digitsToNat a)
    | '/' :: b =>
      if a ≠ [] ∧ b ≠ [] ∧ b.all Char.isDigit then
        if digitsToNat b = 0 then none
        else some ((digitsToNat a : ℚ) / (digitsToNat b : ℚ))
      else none
    | '.' :: b =>
      if b.all Char.isDigit ∧ (a ≠ [] ∨ b ≠ []) then
        some ((digitsToNat a : ℚ) + (digitsToNat b : ℚ) / ((10 : ℚ) ^ b.length))
      else none
    | _ :: _ => none

/-- Helper for `splitWs`: `acc` is the current field, reversed. -/
def splitWsAux : List Char → List Char → List (List Char)
  | [], acc => if acc = [] then [] else [acc.reverse]
  | c :: t, acc =>
    if isWs c then (if acc = [] then [] else [acc.reverse]) ++ splitWsAux t []
    else splitWsAux t (c :: acc)

/-- Python `str.split()` (split on whitespace runs, no empty fields). -/
def splitWs (l : List Char) : List (List Char) := splitWsAux l []

/-- `sum(Fraction(p) for p in raw_qty.split())`, with `none` modelling the
exceptions the source catches (`ValueError`, `ZeroDivisionError`).  The
final `float()` conversion of the source is modelled separately by
`pyFloat`, because its `OverflowError` is *not* in the `except` tuple. -/
def evalQty (raw : List Char) : Option ℚ :=
  match (splitWs raw).mapM parseFractionTok with
  | none => none
  | some qs => some qs.sum

/-- CPython `float()` applied to an exact rational (`int`/`Fraction`):
it raises `OverflowError` — modelled as `none` — exactly when the
correctly-rounded value falls outside the finite doubles, i.e. when
`|q| ≥ 2^1024 - 2^970` (the round-to-nearest-even overflow threshold);
a finite result is kept exact in the rational model. -/
def pyFloat (q : ℚ) : Option ℚ :=
  if ((2 ^ 1024 - 2 ^ 970 : ℕ) : ℚ) ≤ |q| then none else some q

/-- `UNIT_ALIASES` (a case-sensitive dict; note the `"T"`/`"t"` entries). -/
def UNIT_ALIASES (s : String) : Option String :=
  match s with
  | "tablespoon" => some "tbsp" | "tablespoons" => some "tbsp"
  | "tbsps" => some "tbsp" | "tbs" => some "tbsp" | "T" => some "tbsp"
  | "teaspoon" => some "tsp" | "teaspoons" => some "tsp"
  | "tsps" => some "tsp" | "t" => some "tsp"
  | "cup" => some "cup" | "cups" => some "cup" | "c" => some "cup"
  | "ounce" => some "oz" | "ounces" => some "oz"
  | "pound" => some "lb" | "pounds" => some "lb" | "lbs" => some "lb"
  | "gram" => some "g" | "grams" => some "g"
  | "kilogram" => some "kg" | "kilograms" => some "kg"
  | "milliliter" => some "ml" | "milliliters" => some "ml" | "millilitres" => some "ml"
  | "liter" => some "l" | "liters" => some "l" | "litres" => some "l" | "litre" => some "l"
  | "pinch" => some "pinch" | "pinches" => some "pinch"
  | "clove" => some "clove" | "cloves" => some "clove"
  | "can" => some "can" | "cans" => some "can"
  | "bunch" => some "bunch" | "bunches" => some "bunch"
  | "slice" => some "slice" | "slices" => some "slice"
  | "piece" => some "piece" | "pieces" => some "piece"
  | _ => none

/-- `UNIT_ALIASES.get(raw_unit, UNIT_ALIASES.get(raw_unit.lower(), raw_unit.lower()))`. -/
def resolveUnit (raw : String) : String :=
  match UNIT_ALIASES raw with
  | some u => u
  | none =>
    match UNIT_ALIASES (pyLower raw) with
    | some u => u
    | none => pyLower raw

/-- The result record of `_parse_quantity`: `(qty, unit, name)`. -/
structure ParsedQuantity where
  qty : ℚ
  unit : String
  name : String
deriving Repr, DecidableEq

/-- `_QTY_RE` requires a nonempty leading quantity token: after the strip,
the match succeeds iff the first character lies in the quantity class. -/
def hasLeadingQty (t : List Char) : Bool :=
  match t with
  | [] => false
  | c :: _ => isQtyChar c

/-- `_parse_quantity` of `grocery_list.py`.

The regex groups are embedded by maximal munch, which coincides with the
backtracking semantics of `_QTY_RE` here: the quantity class contains all
of `\s`, so the `\s*` after group 1 is empty; the tail
`([a-zA-Z.]+)?\s*(.*)` matches at every position, so group 1 and group 2
are greedy-maximal, and `(.*)` stops at the first newline.

This is the total exact-rational model used by the aggregator, in which
the `float()` conversion of line 69 cannot fail; `parse_quantity_checked`
below refines it with the uncaught `OverflowError` of that conversion. -/
def parse_quantity (text : String) : ParsedQuantity :=
  let t := pyStripL text.data
  if hasLeadingQty t then
    let g1 := t.takeWhile isQtyChar
    let rest1 := t.drop g1.length
    let g2 := rest1.takeWhile isUnitChar
    let rest2 := rest1.drop g2.length
    let g3 := pyStripL ((rest2.dropWhile isWs).takeWhile (fun x => x ≠ '\n'))
    let raw_qty := replaceVulgar (pyStripL g1)
    let raw_unit := rstripDot (pyStripL g2)
    match evalQty raw_qty with
    | none => ⟨0, "", ⟨t⟩⟩
    | some q =>
      let unit := resolveUnit ⟨raw_unit⟩
      let name := stripNamePunct g3
      if name = [] ∧ raw_unit ≠ [] then ⟨q, "", ⟨raw_unit⟩⟩
      else ⟨q, unit, ⟨name⟩⟩
  else ⟨0, "", ⟨t⟩⟩

/-- `_parse_quantity` with the `qty = float(sum(...))` conversion of
line 69 modelled faithfully: `evalQty = none` is the `ValueError` /
`ZeroDivisionError` path, which the source catches and degrades, while
`pyFloat = none` is the `OverflowError` of `float()`, which the
`except (ValueError, ZeroDivisionError)` clause does **not** catch —
the overall `none` models that exception escaping `_parse_quantity`. -/
def parse_quantity_checked (text : String) : Option ParsedQuantity :=
  let t := pyStripL text.data
  if hasLeadingQty t then
    let g1 := t.takeWhile isQtyChar
    let rest1 := t.drop g1.length
    let g2 := rest1.takeWhile isUnitChar
    let rest2 := rest1.drop g2.length
    let g3 := pyStripL ((rest2.dropWhile isWs).takeWhile (fun x => x ≠ '\n'))
    let raw_qty := replaceVulgar (pyStripL g1)
    let raw_unit := rstripDot (pyStripL g2)
    match evalQty raw_qty with
    | none => some ⟨0, "", ⟨t⟩⟩
    | some qsum =>
      match pyFloat qsum with
      | none => none
      | some q =>
        let unit := resolveUnit ⟨raw_unit⟩
        let name := stripNamePunct g3
        if name = [] ∧ raw_unit ≠ [] then some ⟨q, "", ⟨raw_unit⟩⟩
        else some ⟨q, unit, ⟨name⟩⟩
  else some ⟨0, "", ⟨t⟩⟩

/-- `CONVERTIBLE`: the fixed directed conversion table. -/
def CONVERTIBLE (a b : String) : Option ℚ :=
  match a, b with
  | "tsp", "tbsp" => some 3
  | "tbsp", "cup" => some 16
  | "g", "kg" => some 1000
  | "ml", "l" => some 1000
  | "oz", "lb" => some 16
  | _, _ => none

/-- `_try_convert` of `grocery_list.py`. -/
def try_convert (qty : ℚ) (from_unit to_unit : String) : Option ℚ :=
  if from_unit = to_unit then some qty
  else
    match CONVERTIBLE from_unit to_unit with
    | some f => some (qty / f)
    | none =>
      match CONVERTIBLE to_unit from_unit with
      | some f => some (qty * f)
      | none => none

/-- The continued-fraction loop of `Fraction.limit_denominator` (CPython):
state `(p0, q0, p1, q1, n, d)`, iterating `a = n // d`,
`q2 = q0 + a*q1`, breaking as soon as `q2 > maxd` (or, vacuously for the
reachable inputs, when `d = 0`). -/
def cfLoop (maxd p0 q0 p1 q1 n : ℤ) (d : ℕ) : ℤ × ℤ × ℤ × ℤ × ℤ × ℤ :=
  if hd : d = 0 then (p0, q0, p1, q1, n, (d : ℤ))
  else
    if q0 + Int.ediv n (d : ℤ) * q1 > maxd then (p0, q0, p1, q1, n, (d : ℤ))
    else
      cfLoop maxd p1 q1 (p0 + Int.ediv n (d : ℤ) * p1) (q0 + Int.ediv n (d : ℤ) * q1)
        (d : ℤ) (Int.emod n (d : ℤ)).toNat
termination_by d
decreasing_by
  have h1 : 0 ≤ Int.emod n (d : ℤ) := Int.emod_nonneg n (by exact_mod_cast hd)
  have h2 : Int.emod n (d : ℤ) < (d : ℤ) :=
    Int.emod_lt_of_pos n (by exact_mod_cast Nat.pos_of_ne_zero hd)
  omega

/-- The bound `k` on the last semiconvergent step of
`Fraction.limit_denominator`: `k = (max_denominator - q0) // q1` on the
state `r = (p0, q0, p1, q1, n, d)` left by the loop. -/
def cfK (maxd : ℤ) (r : ℤ × ℤ × ℤ × ℤ × ℤ × ℤ) : ℤ :=
  Int.ediv (maxd - r.2.1) r.2.2.2.1

/-- The choice between the two candidate approximations made after the
loop of `Fraction.limit_denominator`: the last convergent `p1/q1` when
`2*d*(q0 + k*q1) <= den`, else the semiconvergent
`(p0 + k*p1)/(q0 + k*q1)`. -/
def cfSelect (maxd : ℤ) (den : ℕ) (r : ℤ × ℤ × ℤ × ℤ × ℤ × ℤ) : ℚ :=
  if 2 * r.2.2.2.2.2 * (r.2.1 + cfK maxd r * r.2.2.2.1) ≤ (den : ℤ) then
    (r.2.2.1 : ℚ) / (r.2.2.2.1 : ℚ)
  else ((r.1 + cfK maxd r * r.2.2.1 : ℤ) : ℚ) / ((r.2.1 + cfK maxd r * r.2.2.2.1 : ℤ) : ℚ)

/-- `Fraction.limit_denominator(maxd)` (CPython), on exact rationals. -/
def limit_denominator (q : ℚ) (maxd : ℕ) : ℚ :=
  if q.den ≤ maxd then q
  else cfSelect (maxd : ℤ) q.den (cfLoop (maxd : ℤ) 0 1 1 0 q.num q.den)

/-- `str(Fraction)`: `"num"` when the denominator is 1, else `"num/den"`. -/
def fracStr (x : ℚ) : String :=
  if x.den = 1 then toString x.num
  else toString x.num ++ "/" ++ toString x.den

/-- `_format_qty` of `grocery_list.py`.  In the exact-rational model the
`Fraction(qty)` construction cannot fail, so the
`except (ValueError, OverflowError)` arm is dead. -/
def format_qty (qty : ℚ) : String :=
  if qty = 0 then ""
  else if qty.den = 1 then toString qty.num
  else
    let f := limit_denominator qty 16
    if (f.den : ℤ) < f.num then
      let whole := Int.ediv f.num (f.den : ℤ)
      let rem := f - (whole : ℚ)
      if rem ≠ 0 then toString whole ++ " " ++ fracStr rem
      else toString whole
    else fracStr f

/-- One aggregated grocery item (`{name, qty, unit, raw_sources}`). -/
structure Item where
  name : String
  qty : ℚ
  unit : String
  raw_sources : List String
deriving Repr, DecidableEq

/-- A recipe record; only the `ingredients` field is read by the engine. -/
structure Recipe where
  ingredients : List String
deriving Repr, DecidableEq

/-- The merge performed on an existing `AggregatedItem` by one incoming
parsed line `(q, u)` with raw text `line` (the `key in merged` branch of
`combine_ingredients`). -/
def mergeExisting (e : Item) (q : ℚ) (u : String) (line : String) : Item :=
  let e1 :=
    if u ≠ "" ∧ e.unit ≠ "" then
      match try_convert q u e.unit with
      | some c => { e with qty := e.qty + c }
      | none =>
        match try_convert e.qty e.unit u with
        | some cr => { e with qty := cr + q, unit := u }
        | none =>
          if u ≠ e.unit then { e with qty := e.qty + q, unit := e.unit ++ "+" ++ u }
          else { e with qty := e.qty + q }
    else { e with qty := e.qty + q, unit := if e.unit = "" then u else e.unit }
  { e1 with raw_sources := e1.raw_sources ++ [line] }

/-- `mergeExisting` with the reverse-direction conversion attempt removed
(used to show that branch is unreachable). -/
def mergeExistingNoRev (e : Item) (q : ℚ) (u : String) (line : String) : Item :=
  let e1 :=
    if u ≠ "" ∧ e.unit ≠ "" then
      match try_convert q u e.unit with
      | some c => { e with qty := e.qty + c }
      | none =>
        if u ≠ e.unit then { e with qty := e.qty + q, unit := e.unit ++ "+" ++ u }
        else { e with qty := e.qty + q }
    else { e with qty := e.qty + q, unit := if e.unit = "" then u else e.unit }
  { e1 with raw_sources := e1.raw_sources ++ [line] }

/-- Lookup in the merge dictionary, modelled as an insertion-ordered
association list (Python dicts preserve insertion order). -/
def lookupA (m : List (String × Item)) (k : String) : Option Item :=
  match m with
  | [] => none
  | (k', v) :: t => if k' = k then some v else lookupA t k

/-- In-place update of the entry with key `k` (keys are unique in a dict,
and updating preserves the insertion order). -/
def updateAssoc (m : List (String × Item)) (k : String) (f : Item → Item) :
    List (String × Item) :=
  m.map (fun e => match e with | (k0, v) => if k0 = k then (k0, f v) else (k0, v))

/-- The normalized grouping key of a raw line:
`_parse_quantity(line)` name, lowercased and stripped. -/
def normKey (line : String) : String := pyKey (parse_quantity line).name

/-- The body of the aggregation loop of `combine_ingredients`, for one
raw ingredient line. -/
def step (m : List (String × Item)) (line : String) : List (String × Item) :=
  let p := parse_quantity line
  let k := pyKey p.name
  if k = "" then m
  else
    match lookupA m k with
    | some _ => updateAssoc m k (fun e => mergeExisting e p.qty p.unit line)
    | none => m ++ [(k, { name := p.name, qty := p.qty, unit := p.unit, raw_sources := [line] })]

/-- The ingredient lines of all recipes, in iteration order. -/
def allLines (recipes : List Recipe) : List String :=
  (recipes.map Recipe.ingredients).flatten

/-- The `merged` dictionary after the aggregation loop. -/
def combinedMap (recipes : List Recipe) : List (String × Item) :=
  (allLines recipes).foldl step []

/-- The sort relation of the final `sorted(..., key=lambda x: x["name"].lower())`. -/
def itemLe (a b : Item) : Prop := pyLower a.name ≤ pyLower b.name

instance : DecidableRel itemLe := fun a b =>
  inferInstanceAs (Decidable (pyLower a.name ≤ pyLower b.name))

instance : IsTotal Item itemLe := ⟨fun a b => le_total (pyLower a.name) (pyLower b.name)⟩

instance : IsTrans Item itemLe := ⟨fun _ _ _ hab hbc => le_trans hab hbc⟩

/-- `combine_ingredients` of `grocery_list.py`. -/
def combine_ingredients (recipes : List Recipe) : List Item :=
  List.insertionSort itemLe ((combinedMap recipes).map Prod.snd)

/-- The failure condition of `_parse_quantity`: the line has no leading
quantity token (the regex does not match), or the quantity token fails
exact-rational evaluation. -/
def parseFails (text : String) : Bool :=
  let t := pyStripL text.data
  if hasLeadingQty t then
    (evalQty (replaceVulgar (pyStripL (t.takeWhile isQtyChar)))).isNone
  else true

-- ------------------------------------------------------------------
-- Theorems
-- ------------------------------------------------------------------

/-- `try_convert` signals incompatibility exactly when the units differ
and neither direction is tabulated. -/
theorem try_convert_eq_none_iff (q : ℚ) (u1 u2 : String) :
    try_convert q u1 u2 = none ↔
      u1 ≠ u2 ∧ CONVERTIBLE u1 u2 = none ∧ CONVERTIBLE u2 u1 = none := by
  unfold try_convert
  by_cases h : u1 = u2
  · simp [h]
  · cases h1 : CONVERTIBLE u1 u2 <;> cases h2 : CONVERTIBLE u2 u1 <;> simp [h, h1, h2]

/-- A tabulated pair always relates two distinct units. -/
theorem convertible_ne {u1 u2 : String} {f : ℚ} (h : CONVERTIBLE u1 u2 = some f) :
    u1 ≠ u2 := by
  unfold CONVERTIBLE at h
  split at h <;> simp_all

/-- No pair of units is tabulated in both directions. -/
theorem convertible_asymm {u1 u2 : String} {f : ℚ} (h : CONVERTIBLE u1 u2 = some f) :
    CONVERTIBLE u2 u1 = none := by
  unfold CONVERTIBLE at h
  split at h <;> simp_all <;> rfl

/-- C3: `_try_convert` returns the amount unchanged on equal units, divides
by the tabulated factor on a tabulated `(from, to)` pair, multiplies by the
factor on a tabulated `(to, from)` pair, and signals incompatibility
(`none`) otherwise — no transitive chaining; in particular
`convert(3, "tsp", "tbsp") = 1`, `convert(1, "tbsp", "tsp") = 3`, and
`convert(5, "tsp", "cup")` is incompatible. -/
theorem try_convert_spec :
    (∀ (q : ℚ) (u : String), try_convert q u u = some q)
    ∧ (∀ (q : ℚ) (u1 u2 : String) (f : ℚ), CONVERTIBLE u1 u2 = some f →
        try_convert q u1 u2 = some (q / f))
    ∧ (∀ (q : ℚ) (u1 u2 : String) (f : ℚ), CONVERTIBLE u2 u1 = some f →
        try_convert q u1 u2 = some (q * f))
    ∧ (∀ (q : ℚ) (u1 u2 : String), u1 ≠ u2 → CONVERTIBLE u1 u2 = none →
        CONVERTIBLE u2 u1 = none → try_convert q u1 u2 = none)
    ∧ try_convert 3 "tsp" "tbsp" = some 1
    ∧ try_convert 1 "tbsp" "tsp" = some 3
    ∧ try_convert 5 "tsp" "cup" = none := by
  refine ⟨?_, ?_, ?_, ?_, by decide, by decide, by decide⟩
  · intro q u
    simp [try_convert]
  · intro q u1 u2 f h
    have hne := convertible_ne h
    simp [try_convert, hne, h]
  · intro q u1 u2 f h
    have hne := (convertible_ne h).symm
    have hfwd := convertible_asymm h
    simp [try_convert, hne, hfwd, h]
  · intro q u1 u2 hne h1 h2
    simp [try_convert, hne, h1, h2]

/-- Witness for C3 at concrete inputs. -/
theorem try_convert_spec_witness :
    try_convert 7 "oz" "lb" = some (7 / 16)
    ∧ try_convert 2 "kg" "g" = some (2 * 1000)
    ∧ try_convert 4 "g" "tbsp" = none :=
  ⟨try_convert_spec.2.1 7 "oz" "lb" 16 (by decide),
   try_convert_spec.2.2.1 2 "kg" "g" 1000 (by decide),
   try_convert_spec.2.2.2.1 4 "g" "tbsp" (by decide) (by decide) (by decide)⟩

/-- C10: conversion compatibility is symmetric — `_try_convert` returns
`none` in one direction iff it does in the other — and consequently the
reverse-direction fallback branch of `combine_ingredients` is dead:
`mergeExisting` coincides with the variant in which that branch is
removed. -/
theorem try_convert_symm_dead_branch :
    (∀ (q : ℚ) (u1 u2 : String), try_convert q u1 u2 = none ↔ try_convert q u2 u1 = none)
    ∧ (∀ (e : Item) (q : ℚ) (u line : String),
        mergeExisting e q u line = mergeExistingNoRev e q u line) := by
  have hsymm : ∀ (q q' : ℚ) (u1 u2 : String),
      try_convert q u1 u2 = none → try_convert q' u2 u1 = none := by
    intro q q' u1 u2 h
    rw [try_convert_eq_none_iff] at h ⊢
    exact ⟨h.1.symm, h.2.2, h.2.1⟩
  refine ⟨fun q u1 u2 => ⟨hsymm q q u1 u2, hsymm q q u2 u1⟩, ?_⟩
  intro e q u line
  unfold mergeExisting mergeExistingNoRev
  by_cases hu : u ≠ "" ∧ e.unit ≠ ""
  · simp only [if_pos hu]
    cases hc : try_convert q u e.unit with
    | some c => rfl
    | none => rw [hsymm q e.qty u e.unit hc]
  · simp only [if_neg hu]

/-- Wherever `parse_quantity_checked` returns a value — i.e. wherever
`_parse_quantity` does not raise — it agrees with the total model
`parse_quantity` used by the aggregator. -/
theorem parse_quantity_checked_agrees (s : String) (p : ParsedQuantity)
    (h : parse_quantity_checked s = some p) : p = parse_quantity s := by
  unfold parse_quantity_checked at h
  unfold parse_quantity
  by_cases hq : hasLeadingQty (pyStripL s.data)
  · simp only [hq, if_true] at h ⊢
    cases hev : evalQty (replaceVulgar (pyStripL ((pyStripL s.data).takeWhile isQtyChar))) with
    | none =>
      simp only [hev] at h ⊢
      injection h with h
      exact h.symm
    | some qsum =>
      simp only [hev] at h ⊢
      cases hf : pyFloat qsum with
      | none =>
        simp only [hf] at h
        exact Option.noConfusion h
      | some q' =>
        have hq' : q' = qsum := by
          unfold pyFloat at hf
          by_cases hc : ((2 ^ 1024 - 2 ^ 970 : ℕ) : ℚ) ≤ |qsum|
          · rw [if_pos hc] at hf; cases hf
          · rw [if_neg hc] at hf
            injection hf with hf
            exact hf.symm
        simp only [hf] at h
        subst hq'
        split at h
        · next hcond =>
            injection h with h
            rw [if_pos hcond]
            exact h.symm
        · next hcond =>
            injection h with h
            rw [if_neg hcond]
            exact h.symm
  · simp only [hq, if_false] at h ⊢
    injection h with h
    exact h.symm

set_option maxRecDepth 8000

/-- C1 (code bug): the source's `except` clause catches only `ValueError`
and `ZeroDivisionError`, so the `float()` conversion of line 69 lets an
`OverflowError` escape `_parse_quantity` on a ~310+-digit quantity token
such as 400 nines — contradicting the claim, the spec and the function's
own docstring ("Returns (0, '', full_text) when parsing fails").  On
every caught failure — an unevaluable quantity token or a line with no
leading quantity token — the degraded result `(0, "", line.strip())` is
returned without raising, as the claim states. -/
theorem parse_quantity_overflow_bug :
    parse_quantity_checked ⟨List.replicate 400 '9' ++ (" cups flour").data⟩ = none
    ∧ (∀ s : String, parseFails s = true →
        parse_quantity_checked s = some ⟨0, "", pyStrip s⟩) := by
  constructor
  · decide
  · intro s h
    unfold parseFails at h
    unfold parse_quantity_checked
    by_cases hq : hasLeadingQty (pyStripL s.data)
    · simp only [hq, if_true, if_pos] at h ⊢
      cases hev : evalQty (replaceVulgar (pyStripL ((pyStripL s.data).takeWhile isQtyChar))) with
      | none => simp [hev, pyStrip]
      | some q => rw [hev] at h; simp at h
    · simp [hq, pyStrip]

/-- Witness for C1: a line with no leading quantity token and one whose
quantity token fails rational evaluation both degrade without raising. -/
theorem parse_quantity_overflow_bug_witness :
    parse_quantity_checked "a pinch of love" = some ⟨0, "", "a pinch of love"⟩
    ∧ parse_quantity_checked "1/0 cup flour" = some ⟨0, "", "1/0 cup flour"⟩ := by
  constructor
  · have h := parse_quantity_overflow_bug.2 "a pinch of love" (by decide)
    rw [h]; decide
  · have h := parse_quantity_overflow_bug.2 "1/0 cup flour" (by decide)
    rw [h]; decide

set_option maxRecDepth 512

/-- C8: parsing a vulgar-fraction glyph is identical to parsing its ASCII
`a/b` spelling, and a whitespace-separated compound quantity token sums
its parts exactly: `"1 1/2 cups flour"` parses to amount `3/2`. -/
theorem parse_vulgar_compound :
    parse_quantity "½ cup sugar" = parse_quantity "1/2 cup sugar"
    ∧ (parse_quantity "1 1/2 cups flour").qty = 3/2 := by
  constructor
  · decide
  · decide

/-- C4: merging a line into an existing item when both units are non-empty
and convertible adds the converted amount to the existing quantity and
keeps the existing unit; aggregating
`["1 tbsp olive oil", "2 tsp olive oil"]` yields exactly one item
`"olive oil"` with unit `"tbsp"` and quantity `1 + 2/3`. -/
theorem merge_convertible_spec :
    (∀ (e : Item) (q c : ℚ) (u line : String), u ≠ "" → e.unit ≠ "" →
        try_convert q u e.unit = some c →
        mergeExisting e q u line =
          { e with qty := e.qty + c, raw_sources := e.raw_sources ++ [line] })
    ∧ combine_ingredients [⟨["1 tbsp olive oil", "2 tsp olive oil"]⟩] =
        [{ name := "olive oil", qty := 1 + 2/3, unit := "tbsp",
           raw_sources := ["1 tbsp olive oil", "2 tsp olive oil"] }] := by
  constructor
  · intro e q c u line hu he hc
    unfold mergeExisting
    rw [if_pos ⟨hu, he⟩, hc]
  · decide

/-- Witness for C4 at a concrete merge. -/
theorem merge_convertible_spec_witness :
    mergeExisting ⟨"olive oil", 1, "tbsp", ["1 tbsp olive oil"]⟩ 2 "tsp" "2 tsp olive oil" =
      ⟨"olive oil", 1 + 2/3, "tbsp", ["1 tbsp olive oil", "2 tsp olive oil"]⟩ :=
  merge_convertible_spec.1 ⟨"olive oil", 1, "tbsp", ["1 tbsp olive oil"]⟩ 2 (2/3)
    "tsp" "2 tsp olive oil" (by decide) (by decide) (by decide)

/-- C5: merging a line into an existing item when both units are non-empty
and conversion fails in both directions sums the raw magnitudes and, the
units being different, sets the composite unit `"existing+new"`;
aggregating `["1 cup flour", "200 g flour"]` yields one item with quantity
`201` and unit `"cup+g"`. -/
theorem merge_incompatible_spec :
    (∀ (e : Item) (q : ℚ) (u line : String), u ≠ "" → e.unit ≠ "" →
        try_convert q u e.unit = none → try_convert e.qty e.unit u = none →
        u ≠ e.unit →
        mergeExisting e q u line =
          { e with qty := e.qty + q, unit := e.unit ++ "+" ++ u,
                   raw_sources := e.raw_sources ++ [line] })
    ∧ combine_ingredients [⟨["1 cup flour", "200 g flour"]⟩] =
        [{ name := "flour", qty := 201, unit := "cup+g",
           raw_sources := ["1 cup flour", "200 g flour"] }] := by
  constructor
  · intro e q u line hu he hc hrev hne
    unfold mergeExisting
    rw [if_pos ⟨hu, he⟩, hc, hrev, if_pos hne]
  · decide

/-- Witness for C5 at a concrete merge. -/
theorem merge_incompatible_spec_witness :
    mergeExisting ⟨"flour", 1, "cup", ["1 cup flour"]⟩ 200 "g" "200 g flour" =
      ⟨"flour", 201, "cup+g", ["1 cup flour", "200 g flour"]⟩ := by
  have h := merge_incompatible_spec.1 ⟨"flour", 1, "cup", ["1 cup flour"]⟩ 200 "g"
    "200 g flour" (by decide) (by decide) (by decide) (by decide) (by decide)
  rw [h]; decide

/-- Merging never changes an item's display name. -/
theorem mergeExisting_name (e : Item) (q : ℚ) (u line : String) :
    (mergeExisting e q u line).name = e.name := by
  unfold mergeExisting
  by_cases h : u ≠ "" ∧ e.unit ≠ ""
  · simp only [if_pos h]
    cases try_convert q u e.unit with
    | some c => rfl
    | none =>
      cases try_convert e.qty e.unit u with
      | some cr => rfl
      | none => by_cases hne : u ≠ e.unit <;> simp [hne]
  · simp only [if_neg h]

/-- Merging appends exactly the incoming raw line to the sources. -/
theorem mergeExisting_raw_sources (e : Item) (q : ℚ) (u line : String) :
    (mergeExisting e q u line).raw_sources = e.raw_sources ++ [line] := by
  unfold mergeExisting
  by_cases h : u ≠ "" ∧ e.unit ≠ ""
  · simp only [if_pos h]
    cases try_convert q u e.unit with
    | some c => rfl
    | none =>
      cases try_convert e.qty e.unit u with
      | some cr => rfl
      | none => by_cases hne : u ≠ e.unit <;> simp [hne]
  · simp only [if_neg h]

/-- Lookup after an in-place update. -/
theorem lookupA_updateAssoc (m : List (String × Item)) (k k' : String) (f : Item → Item) :
    lookupA (updateAssoc m k f) k' =
      if k' = k then (lookupA m k).map f else lookupA m k' := by
  induction m with
  | nil => by_cases h : k' = k <;> simp [updateAssoc, lookupA, h]
  | cons e t ih =>
    obtain ⟨k0, v⟩ := e
    have hhead : updateAssoc ((k0, v) :: t) k f =
        (if k0 = k then (k0, f v) else (k0, v)) :: updateAssoc t k f := rfl
    rw [hhead]
    by_cases h0 : k0 = k
    · rw [if_pos h0]; subst h0
      by_cases h1 : k0 = k'
      · subst h1; simp [lookupA]
      · have h1' : ¬ k' = k0 := fun h => h1 h.symm
        simp [lookupA, h1, h1', ih]
    · rw [if_neg h0]
      by_cases h1 : k0 = k'
      · subst h1; simp [lookupA, h0]
      · have h1' : ¬ k' = k0 := fun h => h1 h.symm
        simp [lookupA, h0, h1, h1', ih]

/-- Lookup distributes over appending a single binding. -/
theorem lookupA_append (m : List (String × Item)) (k k' : String) (v : Item) :
    lookupA (m ++ [(k, v)]) k' =
      match lookupA m k' with
      | some x => some x
      | none => if k = k' then some v else none := by
  induction m with
  | nil => simp [lookupA]
  | cons e t ih =>
    obtain ⟨k0, v0⟩ := e
    by_cases h0 : k0 = k' <;> simp [lookupA, h0, ih]

/-- Updating preserves the key sequence. -/
theorem keys_updateAssoc (m : List (String × Item)) (k : String) (f : Item → Item) :
    (updateAssoc m k f).map Prod.fst = m.map Prod.fst := by
  induction m with
  | nil => rfl
  | cons e t ih =>
    obtain ⟨k0, v⟩ := e
    by_cases h0 : k0 = k <;> simp [updateAssoc, h0] <;> simpa [updateAssoc] using ih

/-- A successful lookup is list membership of the binding. -/
theorem lookupA_mem {m : List (String × Item)} {k : String} {e : Item}
    (h : lookupA m k = some e) : (k, e) ∈ m := by
  induction m with
  | nil => simp [lookupA] at h
  | cons b t ih =>
    obtain ⟨k0, v⟩ := b
    by_cases h0 : k0 = k
    · subst h0; simp [lookupA] at h; simp [h]
    · simp [lookupA, h0] at h; exact List.mem_cons_of_mem _ (ih h)

/-- Lookup succeeds exactly on the keys present. -/
theorem lookupA_isSome_iff (m : List (String × Item)) (k : String) :
    (lookupA m k).isSome ↔ ∃ v, (k, v) ∈ m := by
  induction m with
  | nil => simp [lookupA]
  | cons b t ih =>
    obtain ⟨k0, v⟩ := b
    by_cases h0 : k0 = k
    · subst h0
      refine iff_of_true ?_ ⟨v, List.mem_cons_self _ _⟩
      simp [lookupA]
    · have h0' : ∀ x : Item, (k, x) = (k0, v) → False := by
        intro x hx
        exact h0 ((Prod.mk.injEq _ _ _ _ ▸ hx).1.symm)
      simp only [lookupA, if_neg h0, ih, List.mem_cons]
      constructor
      · intro ⟨x, hx⟩; exact ⟨x, Or.inr hx⟩
      · intro ⟨x, hx⟩
        cases hx with
        | inl h => exact absurd h (h0' x)
        | inr h => exact ⟨x, h⟩

/-- A key occurs in the key sequence iff some binding carries it. -/
theorem mem_keys_iff (m : List (String × Item)) (k : String) :
    k ∈ m.map Prod.fst ↔ ∃ v, (k, v) ∈ m := by
  constructor
  · intro h
    obtain ⟨e, he, hk⟩ := List.mem_map.mp h
    exact ⟨e.2, by rw [← hk]; exact he⟩
  · intro ⟨v, hv⟩
    exact List.mem_map.mpr ⟨(k, v), hv, rfl⟩

/-- How one aggregation step changes the binding of an arbitrary key `k`:
keys other than the line's (nonempty) normalized key are untouched; the
line's own key is merged if present and inserted fresh otherwise. -/
theorem lookupA_step (m : List (String × Item)) (line k : String) :
    lookupA (step m line) k =
      if normKey line = "" ∨ ¬ normKey line = k then lookupA m k
      else
        match lookupA m k with
        | some e => some (mergeExisting e (parse_quantity line).qty (parse_quantity line).unit line)
        | none => some ⟨(parse_quantity line).name, (parse_quantity line).qty,
                       (parse_quantity line).unit, [line]⟩ := by
  have hnk : pyKey (parse_quantity line).name = normKey line := rfl
  simp only [step, hnk]
  by_cases h0 : normKey line = ""
  · rw [if_pos h0, if_pos (Or.inl h0)]
  · rw [if_neg h0]
    by_cases hk : normKey line = k
    · subst hk
      rw [if_neg (by simp [h0])]
      cases hl : lookupA m (normKey line) with
      | some e =>
        simp only [hl]
        rw [lookupA_updateAssoc, if_pos rfl, hl]
        rfl
      | none =>
        simp only [hl]
        rw [lookupA_append]
        simp [hl]
    · rw [if_pos (Or.inr hk)]
      have hk' : ¬ k = normKey line := fun h => hk h.symm
      cases hl : lookupA m (normKey line) with
      | some e =>
        simp only [hl]
        rw [lookupA_updateAssoc, if_neg hk']
      | none =>
        simp only [hl]
        rw [lookupA_append]
        cases hmk : lookupA m k with
        | some x => simp only [hmk]
        | none => simp only [hmk]; rw [if_neg hk]

/-- Key presence after folding the aggregation loop over a list of lines. -/
theorem foldl_lookup_isSome (lines : List String) :
    ∀ (m : List (String × Item)) (k : String),
      (lookupA (lines.foldl step m) k).isSome ↔
        (lookupA m k).isSome ∨ ∃ l ∈ lines, normKey l ≠ "" ∧ normKey l = k := by
  induction lines with
  | nil => intro m k; simp
  | cons l t ih =>
    intro m k
    rw [List.foldl_cons, ih, lookupA_step]
    by_cases hc : normKey l = "" ∨ ¬ normKey l = k
    · rw [if_pos hc]
      constructor
      · rintro (h | h)
        · exact Or.inl h
        · exact Or.inr (by obtain ⟨x, hx, h1, h2⟩ := h; exact ⟨x, List.mem_cons_of_mem _ hx, h1, h2⟩)
      · rintro (h | ⟨x, hx, h1, h2⟩)
        · exact Or.inl h
        · rcases List.mem_cons.mp hx with rfl | hx'
          · rcases hc with hc | hc
            · exact absurd hc h1
            · exact absurd h2 hc
          · exact Or.inr ⟨x, hx', h1, h2⟩
    · rw [if_neg hc]
      push_neg at hc
      obtain ⟨h1, h2⟩ := hc
      refine iff_of_true ?_ (Or.inr ⟨l, List.mem_cons_self _ _, h1, h2⟩)
      left
      cases hl : lookupA m k <;> simp

/-- The display name of the binding of key `k` after folding the loop:
either the key was already present and its name is unchanged, or its name
is the parsed name of the first processed line whose normalized key is
`k`. -/
theorem foldl_lookup_name (lines : List String) :
    ∀ (m : List (String × Item)) (k : String) (e : Item), k ≠ "" →
      lookupA (lines.foldl step m) k = some e →
      (∃ e0, lookupA m k = some e0 ∧ e.name = e0.name) ∨
      (lookupA m k = none ∧ ∃ l, lines.find? (fun l => normKey l == k) = some l ∧
        e.name = (parse_quantity l).name) := by
  induction lines with
  | nil =>
    intro m k e _ h
    exact Or.inl ⟨e, h, rfl⟩
  | cons l t ih =>
    intro m k e hk h
    rw [List.foldl_cons] at h
    rcases ih (step m l) k e hk h with ⟨e0, he0, hname⟩ | ⟨hnone, l', hfind, hname⟩
    · rw [lookupA_step] at he0
      by_cases hc : normKey l = "" ∨ ¬ normKey l = k
      · rw [if_pos hc] at he0
        exact Or.inl ⟨e0, he0, hname⟩
      · rw [if_neg hc] at he0
        push_neg at hc
        obtain ⟨hne, hkey⟩ := hc
        have htrue : (normKey l == k) = true := by simp [hkey]
        cases hl : lookupA m k with
        | some x =>
          simp only [hl] at he0
          injection he0 with he0'
          exact Or.inl ⟨x, rfl, by rw [hname, ← he0', mergeExisting_name]⟩
        | none =>
          simp only [hl] at he0
          injection he0 with he0'
          refine Or.inr ⟨rfl, l, ?_, ?_⟩
          · simp [List.find?_cons, htrue]
          · rw [hname, ← he0']
    · rw [lookupA_step] at hnone
      by_cases hc : normKey l = "" ∨ ¬ normKey l = k
      · rw [if_pos hc] at hnone
        have hfalse : (normKey l == k) = false := by
          rw [beq_eq_false_iff_ne]
          rcases hc with hc | hc
          · rw [hc]; exact fun hcon => hk hcon.symm
          · exact hc
        refine Or.inr ⟨hnone, l', ?_, hname⟩
        simpa [List.find?_cons, hfalse] using hfind
      · rw [if_neg hc] at hnone
        cases hl : lookupA m k <;> simp [hl] at hnone

/-- The raw sources of the binding of key `k` after folding the loop:
exactly the processed lines with normalized key `k`, in encounter order,
appended after whatever was there before. -/
theorem foldl_lookup_sources (lines : List String) :
    ∀ (m : List (String × Item)) (k : String) (e : Item), k ≠ "" →
      lookupA (lines.foldl step m) k = some e →
      (∃ e0, lookupA m k = some e0 ∧
        e.raw_sources = e0.raw_sources ++ lines.filter (fun l => normKey l == k)) ∨
      (lookupA m k = none ∧
        e.raw_sources = lines.filter (fun l => normKey l == k)) := by
  induction lines with
  | nil =>
    intro m k e _ h
    exact Or.inl ⟨e, h, by simp⟩
  | cons l t ih =>
    intro m k e hk h
    rw [List.foldl_cons] at h
    rcases ih (step m l) k e hk h with ⟨e0, he0, hsrc⟩ | ⟨hnone, hsrc⟩
    · rw [lookupA_step] at he0
      by_cases hc : normKey l = "" ∨ ¬ normKey l = k
      · rw [if_pos hc] at he0
        have hfalse : (normKey l == k) = false := by
          rw [beq_eq_false_iff_ne]
          rcases hc with hc | hc
          · rw [hc]; exact fun hcon => hk hcon.symm
          · exact hc
        refine Or.inl ⟨e0, he0, ?_⟩
        rw [hsrc]
        simp [List.filter_cons, hfalse]
      · rw [if_neg hc] at he0
        push_neg at hc
        obtain ⟨hne, hkey⟩ := hc
        have htrue : (normKey l == k) = true := by simp [hkey]
        cases hl : lookupA m k with
        | some x =>
          simp only [hl] at he0
          injection he0 with he0'
          refine Or.inl ⟨x, rfl, ?_⟩
          rw [hsrc, ← he0', mergeExisting_raw_sources]
          simp [List.filter_cons, htrue]
        | none =>
          simp only [hl] at he0
          injection he0 with he0'
          refine Or.inr ⟨rfl, ?_⟩
          rw [hsrc, ← he0']
          simp [List.filter_cons, htrue]
    · rw [lookupA_step] at hnone
      by_cases hc : normKey l = "" ∨ ¬ normKey l = k
      · rw [if_pos hc] at hnone
        have hfalse : (normKey l == k) = false := by
          rw [beq_eq_false_iff_ne]
          rcases hc with hc | hc
          · rw [hc]; exact fun hcon => hk hcon.symm
          · exact hc
        refine Or.inr ⟨hnone, ?_⟩
        rw [hsrc]
        simp [List.filter_cons, hfalse]
      · rw [if_neg hc] at hnone
        cases hl : lookupA m k <;> simp [hl] at hnone

/-- C9: each aggregated item's displayed name is the parsed name of the
first encountered line with that normalized grouping key; merging later
lines never changes it. -/
theorem item_name_is_first_occurrence (recipes : List Recipe) (k : String) (e : Item)
    (hk : k ≠ "") (h : lookupA (combinedMap recipes) k = some e) :
    ∃ line, (allLines recipes).find? (fun l => normKey l == k) = some line ∧
      e.name = (parse_quantity line).name := by
  rcases foldl_lookup_name (allLines recipes) [] k e hk h with ⟨e0, he0, _⟩ | ⟨_, l, hf, hn⟩
  · simp [lookupA] at he0
  · exact ⟨l, hf, hn⟩

/-- Witness for C9: with `["1 cup Flour", "200 g FLOUR"]` the surviving
display name is `"Flour"`, the parsed name of the first line of the key
`"flour"`. -/
theorem item_name_is_first_occurrence_witness :
    ∃ line, (allLines [⟨["1 cup Flour", "200 g FLOUR"]⟩]).find?
        (fun l => normKey l == "flour") = some line ∧
      (⟨"Flour", 201, "cup+g", ["1 cup Flour", "200 g FLOUR"]⟩ : Item).name =
        (parse_quantity line).name :=
  item_name_is_first_occurrence [⟨["1 cup Flour", "200 g FLOUR"]⟩] "flour"
    ⟨"Flour", 201, "cup+g", ["1 cup Flour", "200 g FLOUR"]⟩ (by decide) (by decide)

/-- C7 (amended): the output of `combine_ingredients` is sorted ascending
by the lowercased display name, and the *set of grouping keys* is
invariant under any permutation of the input lines.  (The items' contents
are not invariant; see the counterexample.) -/
theorem combine_sorted_and_keys_perm :
    (∀ recipes : List Recipe, List.Sorted itemLe (combine_ingredients recipes))
    ∧ (∀ r1 r2 : List Recipe, (allLines r1).Perm (allLines r2) →
        ∀ k, k ∈ (combinedMap r1).map Prod.fst ↔ k ∈ (combinedMap r2).map Prod.fst) := by
  constructor
  · intro recipes
    exact List.sorted_insertionSort itemLe _
  · intro r1 r2 hperm k
    rw [mem_keys_iff, ← lookupA_isSome_iff, mem_keys_iff, ← lookupA_isSome_iff]
    show (lookupA ((allLines r1).foldl step []) k).isSome = true ↔
      (lookupA ((allLines r2).foldl step []) k).isSome = true
    rw [foldl_lookup_isSome, foldl_lookup_isSome]
    constructor
    · rintro (h | ⟨l, hl, h1, h2⟩)
      · exact Or.inl h
      · exact Or.inr ⟨l, hperm.mem_iff.mp hl, h1, h2⟩
    · rintro (h | ⟨l, hl, h1, h2⟩)
      · exact Or.inl h
      · exact Or.inr ⟨l, hperm.mem_iff.mpr hl, h1, h2⟩

/-- Witness for C7 (amended) at a concrete permutation. -/
theorem combine_sorted_and_keys_perm_witness :
    ("pepper" ∈ (combinedMap [⟨["1 tbsp pepper", "2 tsp pepper"]⟩]).map Prod.fst ↔
      "pepper" ∈ (combinedMap [⟨["2 tsp pepper", "1 tbsp pepper"]⟩]).map Prod.fst) :=
  combine_sorted_and_keys_perm.2 [⟨["1 tbsp pepper", "2 tsp pepper"]⟩]
    [⟨["2 tsp pepper", "1 tbsp pepper"]⟩] (by decide) "pepper"

/-- Counterexample to C7 as stated: permuting the same input lines keeps
the grouping keys but changes the produced item (different quantity and
unit), so the set of output items is not permutation-invariant. -/
theorem combine_items_not_perm_invariant :
    (allLines [⟨["1 tbsp pepper", "2 tsp pepper"]⟩]).Perm
        (allLines [⟨["2 tsp pepper", "1 tbsp pepper"]⟩])
    ∧ (combine_ingredients [⟨["1 tbsp pepper", "2 tsp pepper"]⟩]).map
        (fun it => (it.name, it.qty, it.unit)) = [("pepper", 1 + 2/3, "tbsp")]
    ∧ (combine_ingredients [⟨["2 tsp pepper", "1 tbsp pepper"]⟩]).map
        (fun it => (it.name, it.qty, it.unit)) = [("pepper", 5, "tsp")]
    ∧ (("pepper", 1 + 2/3, "tbsp") : String × ℚ × String) ≠ ("pepper", 5, "tsp") := by
  refine ⟨?_, by decide, by decide, by decide⟩
  exact List.Perm.swap "2 tsp pepper" "1 tbsp pepper" []

/-- C2 (amended): every line whose normalized grouping key is nonempty
appears in the `raw_sources` of the aggregated item of its key, and those
sources are exactly the lines of that key in encounter order.  (Lines with
an empty normalized key are dropped; see the counterexample.) -/
theorem lines_with_nonempty_key_preserved (recipes : List Recipe) (line : String)
    (hmem : line ∈ allLines recipes) (hne : normKey line ≠ "") :
    ∃ it, it ∈ combine_ingredients recipes ∧ line ∈ it.raw_sources ∧
      it.raw_sources = (allLines recipes).filter (fun l => normKey l == normKey line) := by
  have hsome : (lookupA (combinedMap recipes) (normKey line)).isSome := by
    show (lookupA ((allLines recipes).foldl step []) (normKey line)).isSome = true
    rw [foldl_lookup_isSome]
    exact Or.inr ⟨line, hmem, hne, rfl⟩
  obtain ⟨e, he⟩ := Option.isSome_iff_exists.mp hsome
  rcases foldl_lookup_sources (allLines recipes) [] (normKey line) e hne he with
    ⟨e0, he0, _⟩ | ⟨_, hsrc⟩
  · simp [lookupA] at he0
  · refine ⟨e, ?_, ?_, hsrc⟩
    · have hmm : e ∈ (combinedMap recipes).map Prod.snd :=
        List.mem_map.mpr ⟨(normKey line, e), lookupA_mem he, rfl⟩
      exact ((List.perm_insertionSort itemLe _).mem_iff).mpr hmm
    · rw [hsrc]
      exact List.mem_filter.mpr ⟨hmem, by simp⟩

/-- Witness for C2 (amended) at a concrete line. -/
theorem lines_with_nonempty_key_preserved_witness :
    ∃ it, it ∈ combine_ingredients [⟨["2 cups flour"]⟩] ∧
      "2 cups flour" ∈ it.raw_sources ∧
      it.raw_sources = (allLines [⟨["2 cups flour"]⟩]).filter
        (fun l => normKey l == normKey "2 cups flour") :=
  lines_with_nonempty_key_preserved [⟨["2 cups flour"]⟩] "2 cups flour"
    (by decide) (by decide)

/-- Counterexample to C2 as stated: the input line `"2"` parses to an
empty name, so `combine_ingredients` drops it entirely — it appears in no
aggregated item's `raw_sources`. -/
theorem empty_key_line_dropped :
    "2" ∈ allLines [⟨["2"]⟩]
    ∧ combine_ingredients [⟨["2"]⟩] = []
    ∧ ¬ ∃ it, it ∈ combine_ingredients [⟨["2"]⟩] ∧ "2" ∈ it.raw_sources := by
  refine ⟨by decide, by decide, ?_⟩
  rintro ⟨it, hit, -⟩
  rw [show combine_ingredients [⟨["2"]⟩] = [] by decide] at hit
  exact absurd hit (List.not_mem_nil it)

/-- `limit_denominator` is the identity on fractions already within the
denominator bound. -/
theorem limit_denominator_eq_self {q : ℚ} {maxd : ℕ} (h : q.den ≤ maxd) :
    limit_denominator q maxd = q := by
  unfold limit_denominator
  rw [if_pos h]

/-- Invariant of the continued-fraction loop: on every reachable input the
final `q0` lies in `[0, maxd]` and the final `q1` in `[1, maxd]`. -/
theorem cfLoop_bounds (maxd : ℤ) (hmaxd : 1 ≤ maxd) :
    ∀ (d : ℕ) (p0 q0 p1 q1 n : ℤ),
      ((q0 = 1 ∧ q1 = 0 ∧ d ≠ 0) ∨
        (0 ≤ q0 ∧ q0 ≤ maxd ∧ 1 ≤ q1 ∧ q1 ≤ maxd ∧ (d : ℤ) < n)) →
      0 ≤ (cfLoop maxd p0 q0 p1 q1 n d).2.1 ∧
      (cfLoop maxd p0 q0 p1 q1 n d).2.1 ≤ maxd ∧
      1 ≤ (cfLoop maxd p0 q0 p1 q1 n d).2.2.2.1 ∧
      (cfLoop maxd p0 q0 p1 q1 n d).2.2.2.1 ≤ maxd := by
  intro d
  induction d using Nat.strong_induction_on with
  | _ d ih =>
    intro p0 q0 p1 q1 n hinv
    rw [cfLoop]
    by_cases hd : d = 0
    · rw [dif_pos hd]
      rcases hinv with ⟨-, -, hne⟩ | ⟨h1, h2, h3, h4, -⟩
      · exact absurd hd hne
      · exact ⟨h1, h2, h3, h4⟩
    · rw [dif_neg hd]
      have hdpos : (0 : ℤ) < (d : ℤ) := by exact_mod_cast Nat.pos_of_ne_zero hd
      have hmod_nonneg : 0 ≤ Int.emod n (d : ℤ) := Int.emod_nonneg n (ne_of_gt hdpos)
      have hmod_lt : Int.emod n (d : ℤ) < (d : ℤ) := Int.emod_lt_of_pos n hdpos
      have hdec : (Int.emod n (d : ℤ)).toNat < d := by omega
      by_cases hq2 : q0 + Int.ediv n (d : ℤ) * q1 > maxd
      · rw [if_pos hq2]
        rcases hinv with ⟨hq0, hq1, -⟩ | ⟨h1, h2, h3, h4, -⟩
        · rw [hq0, hq1] at hq2
          simp at hq2
          omega
        · exact ⟨h1, h2, h3, h4⟩
      · rw [if_neg hq2]
        push_neg at hq2
        rcases hinv with ⟨hq0, hq1, -⟩ | ⟨h1, h2, h3, h4, h5⟩
        · refine ih _ hdec _ _ _ _ _ (Or.inr ?_)
          rw [hq0, hq1]
          refine ⟨le_refl 0, by linarith, by simp, by simpa using hmaxd, by omega⟩
        · refine ih _ hdec _ _ _ _ _ (Or.inr ?_)
          have ha : 1 ≤ Int.ediv n (d : ℤ) := by
            rw [show Int.ediv n (d : ℤ) = n / (d : ℤ) from rfl]
            rw [Int.le_ediv_iff_mul_le hdpos]
            omega
          have haq : 1 ≤ Int.ediv n (d : ℤ) * q1 := by nlinarith
          refine ⟨by linarith, by linarith, by linarith, hq2, ?_⟩
          omega

/-- Full characterization of the continued-fraction loop: it preserves the
convergent identities `q1*n + q0*d = D`, `p1*n + p0*d = N` and the
determinant `p1*q0 - p0*q1 = ±1`, keeps `q0 ∈ [0, maxd]`, `q1 ∈ [1, maxd]`
and `0 ≤ d < n`, and stops exactly when `d = 0` or the next convergent
denominator would exceed `maxd`. -/
theorem cfLoop_spec (maxd : ℤ) (hmaxd : 1 ≤ maxd) (N D : ℤ) :
    ∀ (d : ℕ) (p0 q0 p1 q1 n : ℤ),
      q1 * n + q0 * (d : ℤ) = D →
      p1 * n + p0 * (d : ℤ) = N →
      (p1 * q0 - p0 * q1 = 1 ∨ p1 * q0 - p0 * q1 = -1) →
      ((q0 = 1 ∧ q1 = 0 ∧ d ≠ 0) ∨
        (0 ≤ q0 ∧ q0 ≤ maxd ∧ 1 ≤ q1 ∧ q1 ≤ maxd ∧ (d : ℤ) < n)) →
      ∃ P0 Q0 P1 Q1 NN DD : ℤ,
        cfLoop maxd p0 q0 p1 q1 n d = (P0, Q0, P1, Q1, NN, DD) ∧
        Q1 * NN + Q0 * DD = D ∧
        P1 * NN + P0 * DD = N ∧
        (P1 * Q0 - P0 * Q1 = 1 ∨ P1 * Q0 - P0 * Q1 = -1) ∧
        0 ≤ Q0 ∧ Q0 ≤ maxd ∧ 1 ≤ Q1 ∧ Q1 ≤ maxd ∧
        0 ≤ DD ∧ DD < NN ∧
        (DD = 0 ∨ maxd < Q0 + Int.ediv NN DD * Q1) := by
  intro d
  induction d using Nat.strong_induction_on with
  | _ d ih =>
    intro p0 q0 p1 q1 n hD hN hdet hinv
    rw [cfLoop]
    by_cases hd : d = 0
    · rw [dif_pos hd]
      rcases hinv with ⟨-, -, hne⟩ | ⟨h1, h2, h3, h4, h5⟩
      · exact absurd hd hne
      · subst hd
        exact ⟨p0, q0, p1, q1, n, 0, rfl, by simpa using hD, by simpa using hN, hdet,
          h1, h2, h3, h4, le_refl 0, by simpa using h5, Or.inl rfl⟩
    · rw [dif_neg hd]
      have hdpos : (0 : ℤ) < (d : ℤ) := by exact_mod_cast Nat.pos_of_ne_zero hd
      have hmod_nonneg : 0 ≤ Int.emod n (d : ℤ) := Int.emod_nonneg n (ne_of_gt hdpos)
      have hmod_lt : Int.emod n (d : ℤ) < (d : ℤ) := Int.emod_lt_of_pos n hdpos
      have hdec : (Int.emod n (d : ℤ)).toNat < d := by omega
      have hdiv : (d : ℤ) * Int.ediv n (d : ℤ) + Int.emod n (d : ℤ) = n := by
        rw [show Int.ediv n (d : ℤ) = n / (d : ℤ) from rfl,
          show Int.emod n (d : ℤ) = n % (d : ℤ) from rfl]
        exact Int.ediv_add_emod n (d : ℤ)
      by_cases hq2 : q0 + Int.ediv n (d : ℤ) * q1 > maxd
      · rw [if_pos hq2]
        rcases hinv with ⟨hq0, hq1, -⟩ | ⟨h1, h2, h3, h4, h5⟩
        · rw [hq0, hq1] at hq2
          simp at hq2
          omega
        · exact ⟨p0, q0, p1, q1, n, (d : ℤ), rfl, hD, hN, hdet, h1, h2, h3, h4,
            le_of_lt hdpos, h5, Or.inr hq2⟩
      · rw [if_neg hq2]
        push_neg at hq2
        have htonat : (((Int.emod n (d : ℤ)).toNat : ℕ) : ℤ) = Int.emod n (d : ℤ) :=
          Int.toNat_of_nonneg hmod_nonneg
        have hD' : (q0 + Int.ediv n (d : ℤ) * q1) * (d : ℤ) +
            q1 * (((Int.emod n (d : ℤ)).toNat : ℕ) : ℤ) = D := by
          rw [htonat, ← hD]
          have hmod_eq : Int.emod n (d : ℤ) = n - (d : ℤ) * Int.ediv n (d : ℤ) := by omega
          rw [hmod_eq]
          ring
        have hN' : (p0 + Int.ediv n (d : ℤ) * p1) * (d : ℤ) +
            p1 * (((Int.emod n (d : ℤ)).toNat : ℕ) : ℤ) = N := by
          rw [htonat, ← hN]
          have hmod_eq : Int.emod n (d : ℤ) = n - (d : ℤ) * Int.ediv n (d : ℤ) := by omega
          rw [hmod_eq]
          ring
        have hdet' : (p0 + Int.ediv n (d : ℤ) * p1) * q1 -
            p1 * (q0 + Int.ediv n (d : ℤ) * q1) = 1 ∨
            (p0 + Int.ediv n (d : ℤ) * p1) * q1 -
            p1 * (q0 + Int.ediv n (d : ℤ) * q1) = -1 := by
          rcases hdet with h | h
          · right; linear_combination -h
          · left; linear_combination -h
        rcases hinv with ⟨hq0, hq1, -⟩ | ⟨h1, h2, h3, h4, h5⟩
        · refine ih _ hdec _ _ _ _ _ (by linarith [hD', htonat]) (by linarith [hN']) hdet'
            (Or.inr ?_)
          rw [hq0, hq1]
          refine ⟨le_refl 0, by linarith, by simp, by simpa using hmaxd, by omega⟩
        · refine ih _ hdec _ _ _ _ _ (by linarith [hD']) (by linarith [hN']) hdet'
            (Or.inr ?_)
          have ha : 1 ≤ Int.ediv n (d : ℤ) := by
            rw [show Int.ediv n (d : ℤ) = n / (d : ℤ) from rfl]
            rw [Int.le_ediv_iff_mul_le hdpos]
            omega
          have haq : 1 ≤ Int.ediv n (d : ℤ) * q1 := by nlinarith
          refine ⟨by linarith, by linarith, by linarith, hq2, ?_⟩
          omega

/-- The denominator of an integer quotient is bounded by the (positive)
divisor. -/
theorem den_intCast_div_le {a b : ℤ} (hb : 0 < b) {m : ℕ} (hbm : b ≤ (m : ℤ)) :
    ((a : ℚ) / (b : ℚ)).den ≤ m := by
  have hdvd : ((((a : ℚ) / (b : ℚ)).den : ℤ)) ∣ b := by
    rw [← Rat.divInt_eq_div]
    exact Rat.den_dvd a b
  have hle : (((a : ℚ) / (b : ℚ)).den : ℤ) ≤ b := Int.le_of_dvd hb hdvd
  exact_mod_cast le_trans hle hbm

/-- `Fraction.limit_denominator(maxd)` indeed bounds the denominator. -/
theorem limit_denominator_den_le (q : ℚ) (maxd : ℕ) (h1 : 1 ≤ maxd) :
    (limit_denominator q maxd).den ≤ maxd := by
  by_cases hle : q.den ≤ maxd
  · rw [limit_denominator_eq_self hle]; exact hle
  · unfold limit_denominator
    rw [if_neg hle]
    have hmaxd : (1 : ℤ) ≤ (maxd : ℤ) := by exact_mod_cast h1
    have hbounds := cfLoop_bounds (maxd : ℤ) hmaxd q.den 0 1 1 0 q.num
      (Or.inl ⟨rfl, rfl, q.den_nz⟩)
    obtain ⟨hq0_nonneg, hq0_le, hq1_pos, hq1_le⟩ := hbounds
    set r := cfLoop (maxd : ℤ) 0 1 1 0 q.num q.den with hr
    have hq1pos' : (0 : ℤ) < r.2.2.2.1 := lt_of_lt_of_le zero_lt_one hq1_pos
    have hknn : 0 ≤ cfK (maxd : ℤ) r :=
      Int.ediv_nonneg (by linarith) (by linarith)
    have hkq : r.2.1 + cfK (maxd : ℤ) r * r.2.2.2.1 ≤ (maxd : ℤ) := by
      have hdm := Int.ediv_mul_le ((maxd : ℤ) - r.2.1) (ne_of_gt hq1pos')
      rw [show ((maxd : ℤ) - r.2.1) / r.2.2.2.1 =
        Int.ediv ((maxd : ℤ) - r.2.1) r.2.2.2.1 from rfl] at hdm
      unfold cfK
      linarith
    have hkq_pos : 1 ≤ r.2.1 + cfK (maxd : ℤ) r * r.2.2.2.1 := by
      rcases eq_or_lt_of_le hq0_nonneg with h0 | h0
      · have hk1 : 1 ≤ cfK (maxd : ℤ) r := by
          unfold cfK
          rw [← h0, sub_zero]
          rw [show Int.ediv (maxd : ℤ) r.2.2.2.1 = (maxd : ℤ) / r.2.2.2.1 from rfl]
          rw [Int.le_ediv_iff_mul_le hq1pos']
          linarith
        have hprod : 1 * 1 ≤ cfK (maxd : ℤ) r * r.2.2.2.1 :=
          mul_le_mul hk1 hq1_pos zero_le_one (le_trans zero_le_one hk1)
        linarith
      · have hq0_one : 1 ≤ r.2.1 := h0
        have hprod : 0 ≤ cfK (maxd : ℤ) r * r.2.2.2.1 :=
          mul_nonneg hknn (le_of_lt hq1pos')
        linarith
    unfold cfSelect
    by_cases hbr : 2 * r.2.2.2.2.2 * (r.2.1 + cfK (maxd : ℤ) r * r.2.2.2.1) ≤ ((q.den : ℕ) : ℤ)
    · rw [if_pos hbr]
      exact den_intCast_div_le hq1pos' hq1_le
    · rw [if_neg hbr]
      exact den_intCast_div_le (by linarith) hkq

/-- Two distinct fractions with positive denominators are at distance at
least one over the product of the denominators. -/
theorem rat_dist_lower {u v P Q : ℤ} (hv : 0 < v) (hQ : 0 < Q)
    (hne : u * Q - P * v ≠ 0) :
    1 / ((v : ℚ) * (Q : ℚ)) ≤ |(u : ℚ) / (v : ℚ) - (P : ℚ) / (Q : ℚ)| := by
  have hv' : ((v : ℚ)) ≠ 0 := by positivity
  have hQ' : ((Q : ℚ)) ≠ 0 := by positivity
  have hvQ : (0 : ℚ) < (v : ℚ) * (Q : ℚ) := by positivity
  have heq : (u : ℚ) / (v : ℚ) - (P : ℚ) / (Q : ℚ) =
      ((u * Q - P * v : ℤ) : ℚ) / ((v : ℚ) * (Q : ℚ)) := by
    field_simp
    ring
  rw [heq, abs_div, abs_of_pos hvQ, div_le_div_iff_of_pos_right hvQ]
  rw [← Int.cast_abs]
  exact_mod_cast Int.one_le_abs hne

/-- The interval argument: if `x` lies between `c2` and `c1` (signed gaps
`ε*A` and `ε*B` with `ε = ±1`), every point `y` that keeps distance at
least `α` from `c1` and `β` from `c2` with `A + B < α + β` is at distance
at least `min A B` from `x`. -/
theorem between_min_le {x y c1 c2 A B α β ε : ℚ} (hε : ε = 1 ∨ ε = -1)
    (h1 : c1 - x = ε * A) (h2 : x - c2 = ε * B)
    (hA : 0 < A) (hB : 0 < B)
    (hy1 : y ≠ c1 → α ≤ |y - c1|) (hy2 : y ≠ c2 → β ≤ |y - c2|)
    (hαβ : A + B < α + β) :
    min A B ≤ |x - y| := by
  have hεabs : ∀ z : ℚ, |ε * z| = |z| := by
    intro z
    rcases hε with h | h <;> rw [h] <;> simp
  have hεsq : ε * ε = 1 := by rcases hε with h | h <;> rw [h] <;> norm_num
  by_contra hcon
  push_neg at hcon
  have hxy1 : ε * (x - y) ≥ -|x - y| := by
    calc ε * (x - y) ≥ -|ε * (x - y)| := neg_abs_le _
    _ = -|x - y| := by rw [hεabs]
  have hxy2 : ε * (x - y) ≤ |x - y| := by
    calc ε * (x - y) ≤ |ε * (x - y)| := le_abs_self _
    _ = |x - y| := by rw [hεabs]
  have hminA : min A B ≤ A := min_le_left _ _
  have hminB : min A B ≤ B := min_le_right _ _
  -- ε * (c1 - y) = A + ε * (x - y) > 0
  have hc1y : ε * (c1 - y) = A + ε * (x - y) := by
    have : c1 - y = (c1 - x) + (x - y) := by ring
    rw [this, mul_add, h1, ← mul_assoc, hεsq, one_mul]
  have hc1y_pos : 0 < ε * (c1 - y) := by
    rw [hc1y]
    have : -|x - y| > -(min A B) := by linarith
    linarith
  have hyc2 : ε * (y - c2) = B - ε * (x - y) := by
    have : y - c2 = (x - c2) - (x - y) := by ring
    rw [this, mul_sub, h2, ← mul_assoc, hεsq, one_mul]
  have hyc2_pos : 0 < ε * (y - c2) := by
    rw [hyc2]
    linarith
  have hne1 : y ≠ c1 := by
    intro h
    rw [h, sub_self, mul_zero] at hc1y_pos
    exact lt_irrefl 0 hc1y_pos
  have hne2 : y ≠ c2 := by
    intro h
    rw [h, sub_self, mul_zero] at hyc2_pos
    exact lt_irrefl 0 hyc2_pos
  have habs1 : |y - c1| = ε * (c1 - y) := by
    rw [abs_sub_comm, ← hεabs (c1 - y)]
    exact abs_of_pos hc1y_pos
  have habs2 : |y - c2| = ε * (y - c2) := by
    rw [← hεabs (y - c2)]
    exact abs_of_pos hyc2_pos
  have hsum : |y - c1| + |y - c2| = A + B := by
    rw [habs1, habs2, hc1y, hyc2]
    ring
  have hα := hy1 hne1
  have hβ := hy2 hne2
  linarith

set_option maxHeartbeats 1600000

/-- `Fraction.limit_denominator(maxd)` returns a best rational
approximation: no rational with denominator at most `maxd` is strictly
closer. -/
theorem limit_denominator_best (q : ℚ) (maxd : ℕ) (h1 : 1 ≤ maxd) (r : ℚ)
    (hr : r.den ≤ maxd) :
    |q - limit_denominator q maxd| ≤ |q - r| := by
  by_cases hle : q.den ≤ maxd
  · rw [limit_denominator_eq_self hle, sub_self, abs_zero]
    exact abs_nonneg _
  · have hmaxdZ : (1 : ℤ) ≤ (maxd : ℤ) := by exact_mod_cast h1
    obtain ⟨P0, Q0, P1, Q1, NN, DD, heq, hDid, hNid, hdet, hQ0nn, hQ0le, hQ1pos, hQ1le,
      hDDnn, hDDlt, hexit⟩ :=
      cfLoop_spec (maxd : ℤ) hmaxdZ q.num (q.den : ℤ) q.den 0 1 1 0 q.num
        (by ring) (by ring) (Or.inl (by norm_num)) (Or.inl ⟨rfl, rfl, q.den_nz⟩)
    have hDpos : (0 : ℤ) < (q.den : ℤ) := by exact_mod_cast q.pos
    have hDgt : (maxd : ℤ) < (q.den : ℤ) := by exact_mod_cast lt_of_not_le hle
    have hQ1posZ : (0 : ℤ) < Q1 := by linarith
    -- the loop cannot exhaust the continued fraction: `d = 0` would force
    -- `q1 = q.den > maxd`
    have hDD0 : DD ≠ 0 := by
      intro h0
      rw [h0] at hDid hNid hDDlt
      simp only [mul_zero, add_zero] at hDid hNid
      have hdvdD : NN ∣ (q.den : ℤ) := Dvd.intro_left Q1 hDid
      have hdvdN : NN ∣ q.num := Dvd.intro_left P1 hNid
      have h1' : NN.natAbs ∣ q.num.natAbs := Int.natAbs_dvd_natAbs.mpr hdvdN
      have h2' : NN.natAbs ∣ q.den := by
        have h2'' := Int.natAbs_dvd_natAbs.mpr hdvdD
        simpa using h2''
      have hcop : Nat.gcd q.num.natAbs q.den = 1 := q.reduced
      have hdvd1 : NN.natAbs ∣ 1 := hcop ▸ Nat.dvd_gcd h1' h2'
      have hNN1 : NN = 1 := by
        have := Nat.dvd_one.mp hdvd1
        omega
      rw [hNN1, mul_one] at hDid
      omega
    have hDDpos : (0 : ℤ) < DD := lt_of_le_of_ne hDDnn (Ne.symm hDD0)
    have hexit2 : (maxd : ℤ) < Q0 + Int.ediv NN DD * Q1 := hexit.resolve_left hDD0
    -- rewrite the goal to the selected candidate
    rw [show limit_denominator q maxd =
      cfSelect (maxd : ℤ) q.den (cfLoop (maxd : ℤ) 0 1 1 0 q.num q.den) from by
        unfold limit_denominator; rw [if_neg hle]]
    rw [heq]
    simp only [cfSelect, cfK]
    set k := Int.ediv ((maxd : ℤ) - Q0) Q1 with hkdef
    -- integer facts about k
    have hknn : 0 ≤ k := by
      rw [hkdef]
      exact Int.ediv_nonneg (by linarith) (by linarith)
    have hkle : Q0 + k * Q1 ≤ (maxd : ℤ) := by
      have hdm := Int.ediv_mul_le ((maxd : ℤ) - Q0) (ne_of_gt hQ1posZ)
      rw [show ((maxd : ℤ) - Q0) / Q1 = k from rfl] at hdm
      linarith
    have hkmax : (maxd : ℤ) - Q0 < (k + 1) * Q1 := by
      have hdm := Int.lt_ediv_add_one_mul_self ((maxd : ℤ) - Q0) hQ1posZ
      rw [show ((maxd : ℤ) - Q0) / Q1 = k from rfl] at hdm
      exact hdm
    have hka : k < Int.ediv NN DD := by
      by_contra hcon
      push_neg at hcon
      have hstep : Int.ediv NN DD * Q1 ≤ k * Q1 :=
        mul_le_mul_of_nonneg_right hcon (le_of_lt hQ1posZ)
      linarith
    have hmodNN : 0 ≤ NN - Int.ediv NN DD * DD := by
      have hmn := Int.emod_nonneg NN (ne_of_gt hDDpos)
      have hdm : DD * (NN / DD) + NN % DD = NN := Int.ediv_add_emod NN DD
      have hcomm : DD * (NN / DD) = Int.ediv NN DD * DD := by
        rw [show NN / DD = Int.ediv NN DD from rfl]
        ring
      linarith [hdm, hmn, hcomm]
    have hBZpos : 0 < NN - k * DD := by
      nlinarith [mul_nonneg (by linarith : (0 : ℤ) ≤ Int.ediv NN DD - k - 1)
        (le_of_lt hDDpos)]
    have hqcpos : (0 : ℤ) < Q0 + k * Q1 := by
      rcases eq_or_lt_of_le hQ0nn with h0 | h0
      · have hk1 : 1 ≤ k := by
          rw [hkdef, ← h0, sub_zero]
          rw [show Int.ediv (maxd : ℤ) Q1 = (maxd : ℤ) / Q1 from rfl,
            Int.le_ediv_iff_mul_le hQ1posZ]
          linarith
        nlinarith
      · nlinarith [mul_nonneg hknn (le_of_lt hQ1posZ)]
    have hQsum : (maxd : ℤ) < Q1 + (Q0 + k * Q1) := by nlinarith
    -- the convergent identities specialised to the two candidates
    have hint1 : P1 * (q.den : ℤ) - q.num * Q1 = (P1 * Q0 - P0 * Q1) * DD := by
      rw [← hNid, ← hDid]; ring
    have hint2 : q.num * (Q0 + k * Q1) - (P0 + k * P1) * (q.den : ℤ) =
        (P1 * Q0 - P0 * Q1) * (NN - k * DD) := by
      rw [← hNid, ← hDid]; ring
    have hsumZ : DD * (Q0 + k * Q1) + (NN - k * DD) * Q1 = (q.den : ℤ) := by
      rw [← hDid]; ring
    -- pass to ℚ
    have hq' : q = (q.num : ℚ) / (((q.den : ℤ) : ℚ)) := by
      push_cast
      exact (Rat.num_div_den q).symm
    have hDQ : (0 : ℚ) < ((q.den : ℤ) : ℚ) := by exact_mod_cast hDpos
    have hQ1Q : (0 : ℚ) < ((Q1 : ℤ) : ℚ) := by exact_mod_cast hQ1posZ
    have hqcQ : (0 : ℚ) < ((Q0 + k * Q1 : ℤ) : ℚ) := by exact_mod_cast hqcpos
    have hDDQ : (0 : ℚ) < ((DD : ℤ) : ℚ) := by exact_mod_cast hDDpos
    have hBZQ : (0 : ℚ) < ((NN - k * DD : ℤ) : ℚ) := by exact_mod_cast hBZpos
    have hvQ : (0 : ℚ) < ((r.den : ℤ) : ℚ) := by
      exact_mod_cast (by exact_mod_cast r.pos : (0 : ℤ) < (r.den : ℤ))
    have hr' : r = (r.num : ℚ) / (((r.den : ℤ) : ℚ)) := by
      push_cast
      exact (Rat.num_div_den r).symm
    -- the signed gaps
    have hsign : (P1 : ℚ) * (Q0 : ℚ) - (P0 : ℚ) * (Q1 : ℚ) = 1 ∨
        (P1 : ℚ) * (Q0 : ℚ) - (P0 : ℚ) * (Q1 : ℚ) = -1 := by
      rcases hdet with h | h
      · left
        have hc := congrArg (fun z : ℤ => (z : ℚ)) h
        push_cast at hc
        linarith [hc]
      · right
        have hc := congrArg (fun z : ℤ => (z : ℚ)) h
        push_cast at hc
        linarith [hc]
    have hint1Q : (P1 : ℚ) * (q.den : ℚ) - (q.num : ℚ) * (Q1 : ℚ) =
        ((P1 : ℚ) * (Q0 : ℚ) - (P0 : ℚ) * (Q1 : ℚ)) * (DD : ℚ) := by
      exact_mod_cast congrArg (fun z : ℤ => (z : ℚ)) hint1
    have hint2Q : (q.num : ℚ) * ((Q0 : ℚ) + (k : ℚ) * (Q1 : ℚ)) -
        ((P0 : ℚ) + (k : ℚ) * (P1 : ℚ)) * (q.den : ℚ) =
        ((P1 : ℚ) * (Q0 : ℚ) - (P0 : ℚ) * (Q1 : ℚ)) *
          ((NN : ℚ) - (k : ℚ) * (DD : ℚ)) := by
      have hc := congrArg (fun z : ℤ => (z : ℚ)) hint2
      push_cast at hc
      linarith [hc]
    have hqden : q * ((q.den : ℕ) : ℚ) = (q.num : ℚ) := by
      have hden_ne : ((q.den : ℕ) : ℚ) ≠ 0 := Nat.cast_ne_zero.mpr q.den_nz
      have h := (div_eq_iff hden_ne).mp (Rat.num_div_den q)
      linarith [h]
    have hdenQ : (0 : ℚ) < (q.den : ℚ) := by exact_mod_cast q.pos
    have hgap1 : (P1 : ℚ) / (Q1 : ℚ) - q =
        ((P1 : ℚ) * (Q0 : ℚ) - (P0 : ℚ) * (Q1 : ℚ)) *
          ((DD : ℚ) / ((q.den : ℚ) * (Q1 : ℚ))) := by
      have hprod_ne : ((q.den : ℚ) * ((Q1 : ℤ) : ℚ)) ≠ 0 := by positivity
      apply mul_right_cancel₀ hprod_ne
      have e1 : ((P1 : ℚ) / (Q1 : ℚ) - q) * ((q.den : ℚ) * (Q1 : ℚ)) =
          (P1 : ℚ) * (q.den : ℚ) - q * (q.den : ℚ) * (Q1 : ℚ) := by
        have h' : ((P1 : ℚ) / (Q1 : ℚ)) * ((q.den : ℚ) * (Q1 : ℚ)) =
            (((P1 : ℚ) / (Q1 : ℚ)) * (Q1 : ℚ)) * (q.den : ℚ) := by ring
        rw [sub_mul, h', div_mul_cancel₀ _ (ne_of_gt hQ1Q)]
        ring
      have e2 : (((P1 : ℚ) * (Q0 : ℚ) - (P0 : ℚ) * (Q1 : ℚ)) *
            ((DD : ℚ) / ((q.den : ℚ) * (Q1 : ℚ)))) * ((q.den : ℚ) * (Q1 : ℚ)) =
          ((P1 : ℚ) * (Q0 : ℚ) - (P0 : ℚ) * (Q1 : ℚ)) * (DD : ℚ) := by
        rw [mul_assoc, div_mul_cancel₀ _ hprod_ne]
      rw [e1, e2]
      linear_combination hint1Q - (Q1 : ℚ) * hqden
    have hgap2 : q - ((P0 + k * P1 : ℤ) : ℚ) / ((Q0 + k * Q1 : ℤ) : ℚ) =
        ((P1 : ℚ) * (Q0 : ℚ) - (P0 : ℚ) * (Q1 : ℚ)) *
          (((NN - k * DD : ℤ) : ℚ) / ((q.den : ℚ) * ((Q0 + k * Q1 : ℤ) : ℚ))) := by
      have hprod_ne : ((q.den : ℚ) * ((Q0 + k * Q1 : ℤ) : ℚ)) ≠ 0 := by positivity
      apply mul_right_cancel₀ hprod_ne
      have e1 : (q - ((P0 + k * P1 : ℤ) : ℚ) / ((Q0 + k * Q1 : ℤ) : ℚ)) *
            ((q.den : ℚ) * ((Q0 + k * Q1 : ℤ) : ℚ)) =
          q * (q.den : ℚ) * ((Q0 + k * Q1 : ℤ) : ℚ) -
            ((P0 + k * P1 : ℤ) : ℚ) * (q.den : ℚ) := by
        have h' : (((P0 + k * P1 : ℤ) : ℚ) / ((Q0 + k * Q1 : ℤ) : ℚ)) *
              ((q.den : ℚ) * ((Q0 + k * Q1 : ℤ) : ℚ)) =
            ((((P0 + k * P1 : ℤ) : ℚ) / ((Q0 + k * Q1 : ℤ) : ℚ)) *
              ((Q0 + k * Q1 : ℤ) : ℚ)) * (q.den : ℚ) := by ring
        rw [sub_mul, h', div_mul_cancel₀ _ (ne_of_gt hqcQ)]
        ring
      have e2 : (((P1 : ℚ) * (Q0 : ℚ) - (P0 : ℚ) * (Q1 : ℚ)) *
            (((NN - k * DD : ℤ) : ℚ) / ((q.den : ℚ) * ((Q0 + k * Q1 : ℤ) : ℚ)))) *
            ((q.den : ℚ) * ((Q0 + k * Q1 : ℤ) : ℚ)) =
          ((P1 : ℚ) * (Q0 : ℚ) - (P0 : ℚ) * (Q1 : ℚ)) * ((NN - k * DD : ℤ) : ℚ) := by
        rw [mul_assoc, div_mul_cancel₀ _ hprod_ne]
      rw [e1, e2]
      push_cast
      linear_combination hint2Q + ((Q0 : ℚ) + (k : ℚ) * (Q1 : ℚ)) * hqden
    -- the two candidate distances and the gap
    have hA : (0 : ℚ) < (DD : ℚ) / ((q.den : ℚ) * (Q1 : ℚ)) :=
      div_pos hDDQ (mul_pos hdenQ hQ1Q)
    have hB : (0 : ℚ) < ((NN - k * DD : ℤ) : ℚ) / ((q.den : ℚ) * ((Q0 + k * Q1 : ℤ) : ℚ)) :=
      div_pos hBZQ (mul_pos hdenQ hqcQ)
    have hvpos : (0 : ℤ) < (r.den : ℤ) := by exact_mod_cast r.pos
    -- distance lower bounds for any competitor with denominator ≤ maxd
    have hy1 : r ≠ (P1 : ℚ) / (Q1 : ℚ) →
        1 / (((r.den : ℤ) : ℚ) * ((Q1 : ℤ) : ℚ)) ≤ |r - (P1 : ℚ) / (Q1 : ℚ)| := by
      intro hne
      have hner : r.num * Q1 - P1 * (r.den : ℤ) ≠ 0 := by
        intro h0
        apply hne
        rw [hr', div_eq_div_iff (ne_of_gt hvQ) (ne_of_gt hQ1Q)]
        have hc := congrArg (fun z : ℤ => (z : ℚ)) h0
        push_cast at hc ⊢
        linarith [hc]
      have hlow := rat_dist_lower hvpos hQ1posZ hner
      rw [← hr'] at hlow
      exact hlow
    have hy2 : r ≠ ((P0 + k * P1 : ℤ) : ℚ) / ((Q0 + k * Q1 : ℤ) : ℚ) →
        1 / (((r.den : ℤ) : ℚ) * ((Q0 + k * Q1 : ℤ) : ℚ)) ≤
          |r - ((P0 + k * P1 : ℤ) : ℚ) / ((Q0 + k * Q1 : ℤ) : ℚ)| := by
      intro hne
      have hner : r.num * (Q0 + k * Q1) - (P0 + k * P1) * (r.den : ℤ) ≠ 0 := by
        intro h0
        apply hne
        rw [hr', div_eq_div_iff (ne_of_gt hvQ) (ne_of_gt hqcQ)]
        have hc := congrArg (fun z : ℤ => (z : ℚ)) h0
        push_cast at hc ⊢
        linarith [hc]
      have hlow := rat_dist_lower hvpos hqcpos hner
      rw [← hr'] at hlow
      exact hlow
    -- the two gaps sum to exactly the distance between the candidates
    have hsumQ : (DD : ℚ) * ((Q0 : ℚ) + (k : ℚ) * (Q1 : ℚ)) +
        ((NN : ℚ) - (k : ℚ) * (DD : ℚ)) * (Q1 : ℚ) = (q.den : ℚ) := by
      have hc := congrArg (fun z : ℤ => (z : ℚ)) hsumZ
      push_cast at hc
      linarith [hc]
    have hABeq : (DD : ℚ) / ((q.den : ℚ) * (Q1 : ℚ)) +
        ((NN - k * DD : ℤ) : ℚ) / ((q.den : ℚ) * ((Q0 + k * Q1 : ℤ) : ℚ)) =
        1 / (((Q1 : ℤ) : ℚ) * ((Q0 + k * Q1 : ℤ) : ℚ)) := by
      rw [div_add_div _ _ (ne_of_gt (mul_pos hdenQ hQ1Q)) (ne_of_gt (mul_pos hdenQ hqcQ))]
      rw [div_eq_div_iff (by positivity) (by positivity)]
      push_cast
      linear_combination ((q.den : ℚ) * (Q1 : ℚ) * ((Q0 : ℚ) + (k : ℚ) * (Q1 : ℚ))) * hsumQ
    have hv_lt : ((r.den : ℤ) : ℚ) < ((Q1 : ℤ) : ℚ) + ((Q0 + k * Q1 : ℤ) : ℚ) := by
      have hZ : (r.den : ℤ) < Q1 + (Q0 + k * Q1) := by
        have hvle : (r.den : ℤ) ≤ (maxd : ℤ) := by exact_mod_cast hr
        linarith
      exact_mod_cast hZ
    have hαβ : (DD : ℚ) / ((q.den : ℚ) * (Q1 : ℚ)) +
        ((NN - k * DD : ℤ) : ℚ) / ((q.den : ℚ) * ((Q0 + k * Q1 : ℤ) : ℚ)) <
        1 / (((r.den : ℤ) : ℚ) * ((Q1 : ℤ) : ℚ)) +
        1 / (((r.den : ℤ) : ℚ) * ((Q0 + k * Q1 : ℤ) : ℚ)) := by
      rw [hABeq]
      rw [div_add_div _ _ (ne_of_gt (mul_pos hvQ hQ1Q)) (ne_of_gt (mul_pos hvQ hqcQ))]
      rw [div_lt_div_iff (by positivity) (by positivity)]
      nlinarith [mul_pos (mul_pos (mul_pos hvQ hQ1Q) hqcQ) (sub_pos.mpr hv_lt),
        mul_pos hQ1Q hqcQ, mul_pos hvQ hQ1Q, mul_pos hvQ hqcQ]
    have hmin := between_min_le hsign hgap1 hgap2 hA hB hy1 hy2 hαβ
    -- |ε| = 1
    have hεabs : |(P1 : ℚ) * (Q0 : ℚ) - (P0 : ℚ) * (Q1 : ℚ)| = 1 := by
      rcases hsign with h | h <;> rw [h] <;> norm_num
    split_ifs with hbr
    · -- the last convergent p1/q1 is selected: it is the closer candidate
      have habs : |q - (P1 : ℚ) / (Q1 : ℚ)| = (DD : ℚ) / ((q.den : ℚ) * (Q1 : ℚ)) := by
        rw [abs_sub_comm, hgap1, abs_mul, hεabs, one_mul, abs_of_pos hA]
      rw [habs]
      have hZ : DD * (Q0 + k * Q1) ≤ (NN - k * DD) * Q1 := by linarith [hbr, hsumZ]
      have hZQ : (DD : ℚ) * ((Q0 + k * Q1 : ℤ) : ℚ) ≤
          ((NN - k * DD : ℤ) : ℚ) * (Q1 : ℚ) := by exact_mod_cast hZ
      have hAleB : (DD : ℚ) / ((q.den : ℚ) * (Q1 : ℚ)) ≤
          ((NN - k * DD : ℤ) : ℚ) / ((q.den : ℚ) * ((Q0 + k * Q1 : ℤ) : ℚ)) := by
        rw [div_le_div_iff (mul_pos hdenQ hQ1Q) (mul_pos hdenQ hqcQ)]
        nlinarith [mul_le_mul_of_nonneg_left hZQ (le_of_lt hdenQ)]
      calc (DD : ℚ) / ((q.den : ℚ) * (Q1 : ℚ))
          = min ((DD : ℚ) / ((q.den : ℚ) * (Q1 : ℚ)))
              (((NN - k * DD : ℤ) : ℚ) / ((q.den : ℚ) * ((Q0 + k * Q1 : ℤ) : ℚ))) :=
            (min_eq_left hAleB).symm
        _ ≤ |q - r| := hmin
    · -- the semiconvergent is selected: it is the closer candidate
      have habs : |q - ((P0 + k * P1 : ℤ) : ℚ) / ((Q0 + k * Q1 : ℤ) : ℚ)| =
          ((NN - k * DD : ℤ) : ℚ) / ((q.den : ℚ) * ((Q0 + k * Q1 : ℤ) : ℚ)) := by
        rw [hgap2, abs_mul, hεabs, one_mul, abs_of_pos hB]
      rw [habs]
      push_neg at hbr
      have hZ : (NN - k * DD) * Q1 ≤ DD * (Q0 + k * Q1) := by linarith [hbr, hsumZ]
      have hZQ : ((NN - k * DD : ℤ) : ℚ) * (Q1 : ℚ) ≤
          (DD : ℚ) * ((Q0 + k * Q1 : ℤ) : ℚ) := by exact_mod_cast hZ
      have hBleA : ((NN - k * DD : ℤ) : ℚ) / ((q.den : ℚ) * ((Q0 + k * Q1 : ℤ) : ℚ)) ≤
          (DD : ℚ) / ((q.den : ℚ) * (Q1 : ℚ)) := by
        rw [div_le_div_iff (mul_pos hdenQ hqcQ) (mul_pos hdenQ hQ1Q)]
        nlinarith [mul_le_mul_of_nonneg_left hZQ (le_of_lt hdenQ)]
      calc ((NN - k * DD : ℤ) : ℚ) / ((q.den : ℚ) * ((Q0 + k * Q1 : ℤ) : ℚ))
          = min ((DD : ℚ) / ((q.den : ℚ) * (Q1 : ℚ)))
              (((NN - k * DD : ℤ) : ℚ) / ((q.den : ℚ) * ((Q0 + k * Q1 : ℤ) : ℚ))) :=
            (min_eq_right hBleA).symm
        _ ≤ |q - r| := hmin

set_option maxHeartbeats 400000

/-- C6: `_format_qty` renders zero as `""` and integral values as plain
integers; a non-integral value representable with denominator ≤ 16 is
rendered as its own exact fraction — as `"num/den"` when proper and as
`"whole remainder-fraction"` (floor and fractional part) when improper —
every other non-integral value is rendered the same way from its
approximation `limit_denominator q 16`, whose denominator is at most 16;
in particular `format(0) = ""`, `format(3) = "3"`,
`format(3/2) = "1 1/2"`. -/
theorem format_qty_spec :
    (∀ q : ℚ, q = 0 → format_qty q = "")
    ∧ (∀ q : ℚ, q ≠ 0 → q.den = 1 → format_qty q = toString q.num)
    ∧ (∀ q : ℚ, q ≠ 0 → q.den ≠ 1 → q.den ≤ 16 → q.num ≤ (q.den : ℤ) →
        format_qty q = fracStr q)
    ∧ (∀ q : ℚ, q.den ≠ 1 → q.den ≤ 16 → (q.den : ℤ) < q.num →
        format_qty q = toString ⌊q⌋ ++ " " ++ fracStr (q - (⌊q⌋ : ℚ)))
    ∧ (∀ q : ℚ, (limit_denominator q 16).den ≤ 16)
    ∧ (∀ q r : ℚ, r.den ≤ 16 → |q - limit_denominator q 16| ≤ |q - r|)
    ∧ (∀ q : ℚ, q ≠ 0 → q.den ≠ 1 →
        format_qty q =
          if ((limit_denominator q 16).den : ℤ) < (limit_denominator q 16).num then
            if limit_denominator q 16 - (⌊limit_denominator q 16⌋ : ℚ) ≠ 0 then
              toString ⌊limit_denominator q 16⌋ ++ " " ++
                fracStr (limit_denominator q 16 - (⌊limit_denominator q 16⌋ : ℚ))
            else toString ⌊limit_denominator q 16⌋
          else fracStr (limit_denominator q 16))
    ∧ format_qty 0 = "" ∧ format_qty 3 = "3" ∧ format_qty (3/2) = "1 1/2" := by
  refine ⟨?_, ?_, ?_, ?_,
    (fun q => limit_denominator_den_le q 16 (by norm_num)),
    (fun q r hr => limit_denominator_best q 16 (by norm_num) r hr),
    ?_, by decide, by decide, by decide⟩
  · intro q h
    rw [h]
    simp [format_qty]
  · intro q hq hden
    simp [format_qty, hq, hden]
  · intro q hq hden hle hnum
    unfold format_qty
    rw [if_neg hq, if_neg hden, limit_denominator_eq_self hle,
      if_neg (not_lt.mpr hnum)]
  · intro q hden hle hlt
    have hdpos : (0 : ℤ) < (q.den : ℤ) := by exact_mod_cast q.pos
    have hnum_pos : 0 < q.num := lt_trans hdpos hlt
    have hq : q ≠ 0 := by
      intro h
      rw [h] at hnum_pos
      exact absurd hnum_pos (by norm_num)
    have hwhole : Int.ediv q.num (q.den : ℤ) = ⌊q⌋ := (Rat.floor_def).symm
    have hrem : q - ((⌊q⌋ : ℤ) : ℚ) ≠ 0 := by
      intro h
      have : q = ((⌊q⌋ : ℤ) : ℚ) := by linarith [sub_eq_zero.mp h]
      rw [this] at hden
      exact hden (Rat.den_intCast _)
    unfold format_qty
    rw [if_neg hq, if_neg hden, limit_denominator_eq_self hle, if_pos hlt, hwhole,
      if_pos hrem]
  · intro q hq hden
    unfold format_qty
    rw [if_neg hq, if_neg hden]
    have hwh : Int.ediv (limit_denominator q 16).num ((limit_denominator q 16).den : ℤ) =
        ⌊limit_denominator q 16⌋ := Rat.floor_def.symm
    simp only [hwh]

/-- Witness for C6 at concrete proper, improper and small fractions. -/
theorem format_qty_spec_witness :
    format_qty (2/5) = fracStr (2/5)
    ∧ format_qty (3/2) = toString ⌊(3/2 : ℚ)⌋ ++ " " ++ fracStr ((3/2 : ℚ) - ((⌊(3/2 : ℚ)⌋ : ℤ) : ℚ))
    ∧ format_qty (-6) = toString (-6 : ℚ).num
    ∧ |(7/100 : ℚ) - limit_denominator (7/100) 16| ≤ |(7/100 : ℚ) - 1/15|
    ∧ format_qty (7/100) =
        (if ((limit_denominator (7/100) 16).den : ℤ) < (limit_denominator (7/100) 16).num then
          if limit_denominator (7/100) 16 - (⌊limit_denominator (7/100) 16⌋ : ℚ) ≠ 0 then
            toString ⌊limit_denominator (7/100) 16⌋ ++ " " ++
              fracStr (limit_denominator (7/100) 16 - (⌊limit_denominator (7/100) 16⌋ : ℚ))
          else toString ⌊limit_denominator (7/100) 16⌋
        else fracStr (limit_denominator (7/100) 16)) :=
  ⟨format_qty_spec.2.2.1 (2/5) (by decide) (by decide) (by decide) (by decide),
   format_qty_spec.2.2.2.1 (3/2) (by decide) (by decide) (by decide),
   format_qty_spec.2.1 (-6) (by decide) (by decide),
   format_qty_spec.2.2.2.2.2.1 (7/100) (1/15) (by decide),
   format_qty_spec.2.2.2.2.2.2.1 (7/100) (by decide) (by decide)⟩

end Recipes


